import Mathlib

/-!
Verification development for the rolling-window kernel and bridge layer of the
`polars_ta` time-series module (`polars_ta/wq/time_series.py`).

Series are embedded as `List (Option ℚ)`: a `none` entry is a missing value
(the kernels treat the engine's null and NaN payloads identically, so one
missing marker suffices), and numeric payloads are exact rationals.

The wrapper module `polars_ta/wq/time_series.py` delegates the real work to the
numba kernel module `polars_ta/wq/_nb.py` through the batch bridge
`polars_ta/utils/numba_.py`.  The kernel and bridge sources are not part of the
source tree available here, so those kernels are modelled from the
specification (each such definition carries a doc comment starting with
`Modelled from the spec:`).  Wrapper-level logic that is present in the source
(`ts_scale`, `ts_count_eq`, `ts_count_ge`) is translated directly from it, on
top of straightforward models of the columnar engine's rolling primitives.
-/

namespace PolarsTA

/-- The lookback window of length at most `d` ending at position `i`:
positions `[i-d+1, i]` clipped to the observed history. -/
def window {α : Type} (xs : List α) (d i : ℕ) : List α :=
  (xs.take (i + 1)).drop (i + 1 - d)

/-- The non-missing payloads of a window, in order. -/
def dropNone {α : Type} : List (Option α) → List α
  | [] => []
  | none :: t => dropNone t
  | some x :: t => x :: dropNone t

/-- Number of non-missing entries of a window. -/
def countValid {α : Type} (w : List (Option α)) : ℕ :=
  (dropNone w).length

/-- Modelled from the spec: the windowed batch bridge of
`polars_ta/utils/numba_.py` (not under `src/`).  For each output position the
kernel `f` is applied to the window ending there; the output is missing when
the window holds fewer than `minp` non-missing values. -/
def rollWith {α β : Type} (f : List (Option α) → Option β) (d minp : ℕ)
    (xs : List (Option α)) : List (Option β) :=
  (List.range xs.length).map (fun i =>
    if minp ≤ countValid (window xs d i) then f (window xs d i) else none)

/-- Indices (relative to the window, offset by `j`) and payloads of the
non-missing entries of a window, in order. -/
def validIdxFrom (j : ℕ) : List (Option ℚ) → List (ℕ × ℚ)
  | [] => []
  | none :: t => validIdxFrom (j + 1) t
  | some x :: t => (j, x) :: validIdxFrom (j + 1) t

/-- Left fold selecting an entry; `repl new old = true` means the newer entry
replaces the currently selected one. -/
def pickBy (repl : ℚ → ℚ → Bool) (p : ℕ × ℚ) (l : List (ℕ × ℚ)) : ℕ × ℚ :=
  l.foldl (fun b q => if repl q.2 b.2 then q else b) p

/-- Modelled from the spec: the arg-extremum kernel core of
`polars_ta/wq/_nb.py` (not under `src/`).  Scans the window left to right,
replacing the selected entry whenever `repl` fires; with a reflexive `repl`
ties are broken toward the most recent occurrence.  With `rev = true` the
reported value is the distance from the current (last) position, so `0` means
the extreme is at the current position; with `rev = false` it is the offset
from the oldest end of the window. -/
def argExt (repl : ℚ → ℚ → Bool) (rev : Bool) (w : List (Option ℚ)) : Option ℕ :=
  match validIdxFrom 0 w with
  | [] => none
  | p :: t =>
    let b := pickBy repl p t
    some (if rev then w.length - 1 - b.1 else b.1)

/-- Modelled from the spec: `roll_argmax` of `polars_ta/wq/_nb.py` (not under
`src/`), the kernel behind `ts_arg_max`. -/
def roll_argmax (xs : List (Option ℚ)) (d minp : ℕ) (rev : Bool) : List (Option ℕ) :=
  rollWith (argExt (fun xnew xold => decide (xold ≤ xnew)) rev) d minp xs

/-- Modelled from the spec: `roll_argmin` of `polars_ta/wq/_nb.py` (not under
`src/`), the kernel behind `ts_arg_min`. -/
def roll_argmin (xs : List (Option ℚ)) (d minp : ℕ) (rev : Bool) : List (Option ℕ) :=
  rollWith (argExt (fun xnew xold => decide (xnew ≤ xold)) rev) d minp xs

/-- Modelled from the spec: one step of the reset-on-sign/zero cumulative sum
kernel `_cum_sum_reset` of `polars_ta/wq/_nb.py` (not under `src/`).  A missing
input resets the accumulator to `0`, a zero input resets it to `0`, an input of
sign opposite to the accumulator resets it to the input, and otherwise the
input is added. -/
def resetStep (acc : ℚ) (x? : Option ℚ) : ℚ :=
  match x? with
  | none => 0
  | some x =>
    if x = 0 then 0
    else if (0 < acc ∧ x < 0) ∨ (acc < 0 ∧ 0 < x) then x
    else acc + x

/-- Accumulator-passing loop of the reset cumulative sum; the output at each
step is the accumulator after applying that step's rule. -/
def cumSumResetAux (acc : ℚ) : List (Option ℚ) → List ℚ
  | [] => []
  | x? :: t => resetStep acc x? :: cumSumResetAux (resetStep acc x?) t

/-- Modelled from the spec: `_cum_sum_reset` of `polars_ta/wq/_nb.py` (not
under `src/`), the kernel behind `ts_cum_sum_reset`. -/
def _cum_sum_reset (xs : List (Option ℚ)) : List ℚ :=
  cumSumResetAux 0 xs

/-- One step of the override-cumulative kernels: when the override `v` is
present it is emitted (and re-seeds the state); when it is missing the previous
output is combined with `r` through `op`; before the first non-missing `v` the
state is missing and stays missing. -/
def cumByStep (op : ℚ → ℚ → ℚ) (state : Option ℚ) (rv : ℚ × Option ℚ) : Option ℚ :=
  match rv.2 with
  | some x => some x
  | none => state.map (fun p => op p rv.1)

/-- State-passing loop of the override-cumulative kernels. -/
def cumByAux (op : ℚ → ℚ → ℚ) (state : Option ℚ) : List (ℚ × Option ℚ) → List (Option ℚ)
  | [] => []
  | rv :: t => cumByStep op state rv :: cumByAux op (cumByStep op state rv) t

/-- Modelled from the spec: `_cum_sum_by` of `polars_ta/wq/_nb.py` (not under
`src/`), the kernel behind `ts_cum_sum_by`.  The increment series `r` is
missing-free by caller-validated precondition, hence its plain `ℚ` type. -/
def _cum_sum_by (r : List ℚ) (v : List (Option ℚ)) : List (Option ℚ) :=
  cumByAux (· + ·) none (r.zip v)

/-- Modelled from the spec: `_cum_prod_by` of `polars_ta/wq/_nb.py` (not under
`src/`), the kernel behind `ts_cum_prod_by`. -/
def _cum_prod_by (r : List ℚ) (v : List (Option ℚ)) : List (Option ℚ) :=
  cumByAux (· * ·) none (r.zip v)

/-- Lock-step pairing of two series; a pair is valid only when both members
are. -/
def zipValid2 : List (Option ℚ) → List (Option ℚ) → List (Option (ℚ × ℚ))
  | x? :: xs, y? :: ys =>
    (match x?, y? with
     | some a, some b => some (a, b)
     | _, _ => none) :: zipValid2 xs ys
  | _, _ => []

/-- Insertion into a list of `(value, key)` pairs kept sorted by ascending
key (the second component). -/
def insertPair (p : ℚ × ℚ) : List (ℚ × ℚ) → List (ℚ × ℚ)
  | [] => [p]
  | q :: t => if p.2 ≤ q.2 then p :: q :: t else q :: insertPair p t

/-- Insertion sort of `(value, key)` pairs by ascending key. -/
def sortPairs (l : List (ℚ × ℚ)) : List (ℚ × ℚ) :=
  l.foldr insertPair []

/-- Modelled from the spec: one output position of the rank-split windowed sum
kernel `_sum_split_by` of `polars_ta/wq/_nb.py` (not under `src/`).  The output
is the missing pair until the `d`-length window is fully populated with valid
pairs; then the window is sorted by the secondary series and the primary
values of the `k` pairs with the smallest keys are summed into the first
component and those of the `k` pairs with the largest keys into the second
component, matching the worked example of the spec (and of the source
docstring of `ts_sum_split_by`). -/
def sumSplitAt (zv : List (Option (ℚ × ℚ))) (d k i : ℕ) : Option ℚ × Option ℚ :=
  let v := dropNone (window zv d i)
  if v.length = d then
    (some (((sortPairs v).take k).map Prod.fst).sum,
     some ((((sortPairs v).drop ((sortPairs v).length - k)).map Prod.fst).sum))
  else (none, none)

/-- Modelled from the spec: `_sum_split_by` of `polars_ta/wq/_nb.py` (not under
`src/`), the paired-output kernel behind `ts_sum_split_by`. -/
def _sum_split_by (x b : List (Option ℚ)) (d k : ℕ) :
    List (Option ℚ) × List (Option ℚ) :=
  ((List.range (zipValid2 x b).length).map (fun i => (sumSplitAt (zipValid2 x b) d k i).1),
   (List.range (zipValid2 x b).length).map (fun i => (sumSplitAt (zipValid2 x b) d k i).2))

/-- Modelled from the spec: one transition of the signal-to-position state
machine `_signals_to_size` of `polars_ta/wq/_nb.py` (not under `src/`).  Exits
are honored before entries, except that in accumulate mode a same-bar
same-direction entry keeps the position open; with `accumulate = false` a
same-direction entry while in position is a no-op, with `accumulate = true` it
adds one unit.  On the open question of simultaneous long and short entries
from flat, the long entry is given priority. -/
def sigStep (accumulate : Bool) (pos : ℚ) (s : Bool × Bool × Bool × Bool) : ℚ :=
  let le := s.1
  let lx := s.2.1
  let se := s.2.2.1
  let sx := s.2.2.2
  let q1 : ℚ :=
    if 0 < pos ∧ lx = true ∧ ¬(accumulate = true ∧ le = true) then 0
    else if pos < 0 ∧ sx = true ∧ ¬(accumulate = true ∧ se = true) then 0
    else pos
  let q2 : ℚ :=
    if le = true then
      (if 0 < q1 then (if accumulate = true then q1 + 1 else q1)
       else if q1 = 0 then 1 else q1)
    else q1
  if se = true then
    (if q2 < 0 then (if accumulate = true then q2 - 1 else q2)
     else if q2 = 0 ∧ le = false then -1 else q2)
  else q2

/-- State-passing loop of the signal-to-position machine; with
`action = false` it emits the position after each step, with `action = true`
the change in position. -/
def sigRun (accumulate action : Bool) (pos : ℚ) :
    List (Bool × Bool × Bool × Bool) → List ℚ
  | [] => []
  | s :: t =>
    (if action = true then sigStep accumulate pos s - pos else sigStep accumulate pos s) ::
      sigRun accumulate action (sigStep accumulate pos s) t

/-- Lock-step bundling of the four boolean signal streams. -/
def zip4 (a b c d : List Bool) : List (Bool × Bool × Bool × Bool) :=
  List.zipWith (fun x yzw => (x, yzw)) a
    (List.zipWith (fun y zw => (y, zw)) b (List.zipWith Prod.mk c d))

/-- Modelled from the spec: `_signals_to_size` of `polars_ta/wq/_nb.py` (not
under `src/`), the kernel behind `ts_signals_to_size`. -/
def _signals_to_size (le lx se sx : List Bool) (accumulate action : Bool) : List ℚ :=
  sigRun accumulate action 0 (zip4 le lx se sx)

/-- Boolean coercion of a numeric entry followed by the integer cast, as in
`x.cast(Boolean).cast(UInt32)`: nonzero becomes `1`, zero becomes `0`, missing
stays missing. -/
def toCount (x? : Option ℚ) : Option ℕ :=
  x?.map (fun v => if v = 0 then 0 else 1)

/-- The engine's `rolling_sum` primitive at one position: the sum of the
non-missing values of the window, or missing when fewer than `minp` of them
exist. -/
def sumAt (xs : List (Option ℕ)) (d minp i : ℕ) : Option ℕ :=
  if minp ≤ countValid (window xs d i) then some ((dropNone (window xs d i)).sum)
  else none

/-- Kleene conjunction of the engine's tri-state booleans, as produced by the
`&` of two mask expressions. -/
def kleeneAnd (a b : Option Bool) : Option Bool :=
  match a, b with
  | some false, _ => some false
  | _, some false => some false
  | some true, some true => some true
  | _, _ => none

/-- `ts_count_eq x d n minp`, translated from the source:
`(xx.rolling_sum(n) == n) & (xx.rolling_sum(d, min_samples=minp) == n)` where
`xx` is the boolean-coerced input; the first rolling sum uses the engine's
default minimum sample count, which equals its window size `n`. -/
def ts_count_eq (x : List (Option ℚ)) (d n minp : ℕ) : List (Option Bool) :=
  (List.range x.length).map (fun i =>
    kleeneAnd ((sumAt (x.map toCount) n n i).map (fun s => decide (s = n)))
      ((sumAt (x.map toCount) d minp i).map (fun s => decide (s = n))))

/-- `ts_count_ge x d n minp`, translated from the source:
`(xx.rolling_sum(n) == n) & (xx.rolling_sum(d, min_samples=minp) >= n)`. -/
def ts_count_ge (x : List (Option ℚ)) (d n minp : ℕ) : List (Option Bool) :=
  (List.range x.length).map (fun i =>
    kleeneAnd ((sumAt (x.map toCount) n n i).map (fun s => decide (s = n)))
      ((sumAt (x.map toCount) d minp i).map (fun s => decide (n ≤ s))))

/-- Minimum of a list of rationals, or `none` when it is empty. -/
def minD : List ℚ → Option ℚ
  | [] => none
  | x :: t =>
    match minD t with
    | none => some x
    | some m => some (if x ≤ m then x else m)

/-- Maximum of a list of rationals, or `none` when it is empty. -/
def maxD : List ℚ → Option ℚ
  | [] => none
  | x :: t =>
    match maxD t with
    | none => some x
    | some m => some (if x ≤ m then m else x)

/-- The engine's `rolling_min` primitive at one position. -/
def minAt (xs : List (Option ℚ)) (d minp i : ℕ) : Option ℚ :=
  if minp ≤ countValid (window xs d i) then minD (dropNone (window xs d i))
  else none

/-- The engine's `rolling_max` primitive at one position. -/
def maxAt (xs : List (Option ℚ)) (d minp i : ℕ) : Option ℚ :=
  if minp ≤ countValid (window xs d i) then maxD (dropNone (window xs d i))
  else none

/-- `ts_scale`, translated from the source:
`when(a != b).then((x - a) / (b - a)).otherwise(0)` with `a = ts_min(x, d)` and
`b = ts_max(x, d)`.  When the condition is false (window maximum equals window
minimum) or null (either rolling extreme is missing) the `otherwise` branch
emits the in-band value `0`; inside the `then` branch a missing `x` propagates
as missing. -/
def ts_scale (xs : List (Option ℚ)) (d minp : ℕ) : List (Option ℚ) :=
  (List.range xs.length).map (fun i =>
    match minAt xs d minp i, maxAt xs d minp i with
    | some a, some b =>
      if a = b then some 0 else (xs[i]?.join).map (fun xv => (xv - a) / (b - a))
    | _, _ => some 0)

/-- Lock-step bundling of three series; a triple is valid only when all three
members are. -/
def zipValid3 : List (Option ℚ) → List (Option ℚ) → List (Option ℚ) →
    List (Option (ℚ × ℚ × ℚ))
  | x? :: xs, y? :: ys, z? :: zs =>
    (match x?, y?, z? with
     | some a, some b, some c => some (a, b, c)
     | _, _, _ => none) :: zipValid3 xs ys zs
  | _, _, _ => []

/-- First component of a triple. -/
def p1 (t : ℚ × ℚ × ℚ) : ℚ := t.1

/-- Second component of a triple. -/
def p2 (t : ℚ × ℚ × ℚ) : ℚ := t.2.1

/-- Third component of a triple. -/
def p3 (t : ℚ × ℚ × ℚ) : ℚ := t.2.2

/-- Sum of a function over the entries of a list. -/
def lsum {α : Type} (v : List α) (f : α → ℚ) : ℚ :=
  (v.map f).sum

/-- Count-scaled centered co-moment of two coordinates over the valid window
entries: `n·Σfg − Σf·Σg`, the Pearson numerator up to the positive factor
`n`. -/
def cstat (v : List (ℚ × ℚ × ℚ)) (f g : (ℚ × ℚ × ℚ) → ℚ) : ℚ :=
  (v.length : ℚ) * lsum v (fun t => f t * g t) - lsum v f * lsum v g

/-- Numerator of the three-variable partial correlation, cleared of square
roots: `C_xy·C_zz − C_xz·C_yz`. -/
def pnum (v : List (ℚ × ℚ × ℚ)) : ℚ :=
  cstat v p1 p2 * cstat v p3 p3 - cstat v p1 p3 * cstat v p2 p3

/-- Squared denominator of the three-variable partial correlation:
`(C_xx·C_zz − C_xz²)·(C_yy·C_zz − C_yz²)`. -/
def pden (v : List (ℚ × ℚ × ℚ)) : ℚ :=
  (cstat v p1 p1 * cstat v p3 p3 - (cstat v p1 p3) ^ 2) *
    (cstat v p2 p2 * cstat v p3 p3 - (cstat v p2 p3) ^ 2)

/-- Modelled from the spec: the window-level partial-correlation kernel of
`roll_partial_corr` in `polars_ta/wq/_nb.py` (not under `src/`), using the
standard three-variable formula built from pairwise Pearson correlations.  The
correlation value is the real number `pnum v / √(pden v)`; the kernel result is
represented by the exact rational pair `(pnum v, pden v)` so that the
definition stays executable, and it is missing whenever any pairwise
correlation denominator (hence one of `C_xx`, `C_yy`, `C_zz`) or the partial
correlation denominator is exactly zero. -/
def pcKernel (w : List (Option (ℚ × ℚ × ℚ))) : Option (ℚ × ℚ) :=
  if cstat (dropNone w) p1 p1 = 0 ∨ cstat (dropNone w) p2 p2 = 0 ∨
      cstat (dropNone w) p3 p3 = 0 ∨ pden (dropNone w) = 0 then none
  else some (pnum (dropNone w), pden (dropNone w))

/-- Modelled from the spec: `roll_partial_corr` of `polars_ta/wq/_nb.py` (not
under `src/`), the kernel behind `ts_partial_corr`; see `pcKernel` for the
value representation. -/
def roll_partial_corr (xs ys zs : List (Option ℚ)) (d minp : ℕ) :
    List (Option (ℚ × ℚ)) :=
  rollWith pcKernel d minp (zipValid3 xs ys zs)

/-- Swap of the two primary coordinates of a triple. -/
def swap12 (t : ℚ × ℚ × ℚ) : ℚ × ℚ × ℚ :=
  (p2 t, p1 t, p3 t)

theorem length_window_le {α : Type} (xs : List α) (d i : ℕ) :
    (window xs d i).length ≤ d := by
  simp only [window, List.length_drop, List.length_take]
  omega

theorem length_window_le_pos {α : Type} (xs : List α) (d i : ℕ) :
    (window xs d i).length ≤ i + 1 := by
  simp only [window, List.length_drop, List.length_take]
  omega

theorem length_dropNone_le {α : Type} (w : List (Option α)) : (dropNone w).length ≤ w.length := by
  induction w with
  | nil => simp [dropNone]
  | cons h t ih => cases h <;> simp [dropNone] <;> omega

theorem countValid_le {α : Type} (w : List (Option α)) : countValid w ≤ w.length :=
  length_dropNone_le w

theorem length_rollWith {α β : Type} (f : List (Option α) → Option β) (d minp : ℕ)
    (xs : List (Option α)) : (rollWith f d minp xs).length = xs.length := by
  simp [rollWith]

theorem rollWith_getElem {α β : Type} (f : List (Option α) → Option β) (d minp i : ℕ)
    (xs : List (Option α)) (h : i < xs.length) :
    (rollWith f d minp xs)[i]? =
      some (if minp ≤ countValid (window xs d i) then f (window xs d i) else none) := by
  simp [rollWith, List.getElem?_map, List.getElem?_range, h]

/-- Claim C1: the reset-on-sign/zero cumulative sum maps the spec's example
input `[1, 0, 1, 2, null, 3, -2, -3]` to exactly `[1, 0, 1, 3, 0, 3, -2, -5]`,
and in general each step emits the accumulator after this step's rule: a
missing input resets it to `0`, a zero input resets it to `0` (the current
value), an input of sign opposite to the accumulator resets it to the current
value, and otherwise the current value is added. -/
theorem c1_cum_sum_reset :
    _cum_sum_reset [some 1, some 0, some 1, some 2, none, some 3, some (-2), some (-3)]
        = [1, 0, 1, 3, 0, 3, -2, -5]
      ∧ (∀ acc : ℚ, resetStep acc none = 0)
      ∧ (∀ acc x : ℚ, resetStep acc (some x) =
          if x = 0 then 0
          else if (0 < acc ∧ x < 0) ∨ (acc < 0 ∧ 0 < x) then x
          else acc + x)
      ∧ (∀ (acc : ℚ) (x : Option ℚ) (t : List (Option ℚ)),
          cumSumResetAux acc (x :: t) = resetStep acc x :: cumSumResetAux (resetStep acc x) t) := by
  refine ⟨by norm_num [_cum_sum_reset, cumSumResetAux, resetStep],
    fun acc => rfl, fun acc x => rfl, fun acc x t => rfl⟩

/-- Claim C2: with `r = [1, 2, 3, 4, 5, 6]` and `v = [null, null, 6, null,
null, 12]` the override-cumulative sum returns `[null, null, 6, 10, 15, 12]`
and the override-cumulative product returns `[null, null, 6, 24, 120, 12]`;
in general a present `v` is emitted and re-seeds the state, a missing `v`
combines the previous output with `r` through `+` or `×`, and the output is
missing before the first non-missing `v`. -/
theorem c2_cum_by :
    _cum_sum_by [1, 2, 3, 4, 5, 6] [none, none, some 6, none, none, some 12]
        = [none, none, some 6, some 10, some 15, some 12]
      ∧ _cum_prod_by [1, 2, 3, 4, 5, 6] [none, none, some 6, none, none, some 12]
        = [none, none, some 6, some 24, some 120, some 12]
      ∧ (∀ (op : ℚ → ℚ → ℚ) (st : Option ℚ) (r x : ℚ), cumByStep op st (r, some x) = some x)
      ∧ (∀ (op : ℚ → ℚ → ℚ) (p r : ℚ), cumByStep op (some p) (r, none) = some (op p r))
      ∧ (∀ (op : ℚ → ℚ → ℚ) (r : ℚ), cumByStep op none (r, none) = none)
      ∧ (∀ (op : ℚ → ℚ → ℚ) (st : Option ℚ) (rv : ℚ × Option ℚ) (t : List (ℚ × Option ℚ)),
          cumByAux op st (rv :: t) = cumByStep op st rv :: cumByAux op (cumByStep op st rv) t) := by
  exact ⟨by norm_num [_cum_sum_by, cumByAux, cumByStep, List.zip, List.zipWith],
    by norm_num [_cum_prod_by, cumByAux, cumByStep, List.zip, List.zipWith],
    fun op st r x => rfl, fun op p r => rfl, fun op r => rfl,
    fun op st rv t => rfl⟩

/-- Claim C3: the rank-split windowed sum with `d = 8` and `k = 3` on the
primary series `[10, 20, ..., 100]` ranked by the secondary series
`[10, 9, ..., 1]` emits the missing pair at the first seven positions and the
pair `(210, 60)` at the eighth. -/
theorem c3_sum_split :
    (_sum_split_by ([10, 20, 30, 40, 50, 60, 70, 80, 90, 100].map some)
        ([10, 9, 8, 7, 6, 5, 4, 3, 2, 1].map some) 8 3).1.take 7 = List.replicate 7 none
      ∧ (_sum_split_by ([10, 20, 30, 40, 50, 60, 70, 80, 90, 100].map some)
        ([10, 9, 8, 7, 6, 5, 4, 3, 2, 1].map some) 8 3).2.take 7 = List.replicate 7 none
      ∧ (_sum_split_by ([10, 20, 30, 40, 50, 60, 70, 80, 90, 100].map some)
        ([10, 9, 8, 7, 6, 5, 4, 3, 2, 1].map some) 8 3).1[7]? = some (some 210)
      ∧ (_sum_split_by ([10, 20, 30, 40, 50, 60, 70, 80, 90, 100].map some)
        ([10, 9, 8, 7, 6, 5, 4, 3, 2, 1].map some) 8 3).2[7]? = some (some 60) := by
  refine ⟨?_, ?_, ?_, ?_⟩ <;>
    norm_num [_sum_split_by, sumSplitAt, window, zipValid2, sortPairs, insertPair, dropNone,
      List.range, List.range.loop, List.replicate]

/-- Claim C5: with `accumulate = false` and `action = false`, a lone long
entry at step 2 followed by a lone long exit at step 4 yields the position
sequence `[0, 1, 1, 0]`; three consecutive long entries without an exit keep
the position size at `1`; and with `accumulate = true` two consecutive long
entries yield `[0, 1, 2]` before any exit. -/
theorem c5_signals :
    _signals_to_size [false, true, false, false] [false, false, false, true]
        [false, false, false, false] [false, false, false, false] false false = [0, 1, 1, 0]
      ∧ _signals_to_size [true, true, true] [false, false, false]
        [false, false, false] [false, false, false] false false = [1, 1, 1]
      ∧ _signals_to_size [false, true, true] [false, false, false]
        [false, false, false] [false, false, false] true false = [0, 1, 2] := by
  refine ⟨?_, ?_, ?_⟩ <;>
    norm_num [_signals_to_size, sigRun, sigStep, zip4]

/-- Claim C6, counterexample: `ts_scale` on the series `[1, 1]` with `d = 2`
and `minp = 2` hits a window whose maximum equals its minimum at position 1,
and there it outputs the in-band value `0` — not a missing value as the claim
asserts for zero-denominator positions of scale-type kernels. -/
theorem c6_counterexample :
    (ts_scale [some 1, some 1] 2 2)[1]? = some (some 0)
      ∧ (ts_scale [some 1, some 1] 2 2)[1]? ≠ some none := by
  constructor <;>
    · norm_num [ts_scale, minAt, maxAt, minD, maxD, window, countValid, dropNone,
        List.range, List.range.loop]
      try exact Option.some_ne_none 0

theorem length_cumSumResetAux (xs : List (Option ℚ)) :
    ∀ acc : ℚ, (cumSumResetAux acc xs).length = xs.length := by
  induction xs with
  | nil => intro acc; rfl
  | cons x t ih => intro acc; simp [cumSumResetAux, ih]

theorem length_cumByAux (l : List (ℚ × Option ℚ)) :
    ∀ (op : ℚ → ℚ → ℚ) (st : Option ℚ), (cumByAux op st l).length = l.length := by
  induction l with
  | nil => intro op st; rfl
  | cons rv t ih => intro op st; simp [cumByAux, ih]

theorem length_sigRun (l : List (Bool × Bool × Bool × Bool)) :
    ∀ (acc act : Bool) (pos : ℚ), (sigRun acc act pos l).length = l.length := by
  induction l with
  | nil => intro acc act pos; rfl
  | cons s t ih => intro acc act pos; simp [sigRun, ih]

theorem length_zipValid2 (x : List (Option ℚ)) :
    ∀ b : List (Option ℚ), (zipValid2 x b).length = min x.length b.length := by
  induction x with
  | nil => intro b; cases b <;> simp [zipValid2]
  | cons x? t ih => intro b; cases b <;> simp [zipValid2, ih] <;> omega

theorem length_zipValid3 (x : List (Option ℚ)) :
    ∀ y z : List (Option ℚ),
      (zipValid3 x y z).length = min x.length (min y.length z.length) := by
  induction x with
  | nil => intro y z; cases y <;> cases z <;> simp [zipValid3]
  | cons x? t ih =>
    intro y z
    cases y with
    | nil => simp [zipValid3]
    | cons y? ty => cases z <;> simp [zipValid3, ih] <;> omega

/-- Claim C7: every windowed kernel goes through the bridge `rollWith`, and
for every kernel body, window size, validity threshold `minp` and input, the
output at every position `i < minp - 1` is missing; in particular this holds
for the arg-extremum kernels. -/
theorem c7_min_samples :
    (∀ (α β : Type) (f : List (Option α) → Option β) (d minp : ℕ)
        (xs : List (Option α)) (i : ℕ), i < minp - 1 → i < xs.length →
        (rollWith f d minp xs)[i]? = some none)
      ∧ (∀ (xs : List (Option ℚ)) (d minp i : ℕ) (rev : Bool), i < minp - 1 → i < xs.length →
          (roll_argmax xs d minp rev)[i]? = some none)
      ∧ (∀ (xs : List (Option ℚ)) (d minp i : ℕ) (rev : Bool), i < minp - 1 → i < xs.length →
          (roll_argmin xs d minp rev)[i]? = some none) := by
  have key : ∀ (α β : Type) (f : List (Option α) → Option β) (d minp : ℕ)
      (xs : List (Option α)) (i : ℕ), i < minp - 1 → i < xs.length →
      (rollWith f d minp xs)[i]? = some none := by
    intro α β f d minp xs i hi hlen
    rw [rollWith_getElem f d minp i xs hlen]
    have h1 := countValid_le (window xs d i)
    have h2 := length_window_le_pos xs d i
    rw [if_neg (by omega)]
  exact ⟨key, fun xs d minp i rev hi hlen => key ℚ ℕ _ d minp xs i hi hlen,
    fun xs d minp i rev hi hlen => key ℚ ℕ _ d minp xs i hi hlen⟩

/-- Witness for C7 at a concrete kernel, input, window and threshold. -/
theorem c7_min_samples_witness :
    (rollWith (fun w : List (Option ℚ) => some w.length) 1 2 [some 1])[0]? = some none := by
  exact c7_min_samples.1 ℚ ℕ (fun w => some w.length) 1 2 [some 1] 0 (by omega) (by simp)

/-- Claim C9: on equal-length inputs every kernel returns output arrays of
exactly the input length (both members of the paired rank-split output
included); the bridge `rollWith` preserves length unconditionally.  The
embedding is purely functional, so no kernel can mutate its input arrays. -/
theorem c9_lengths :
    (∀ (α β : Type) (f : List (Option α) → Option β) (d minp : ℕ) (xs : List (Option α)),
        (rollWith f d minp xs).length = xs.length)
      ∧ (∀ xs : List (Option ℚ), (_cum_sum_reset xs).length = xs.length)
      ∧ (∀ (n : ℕ) (r : List ℚ) (v : List (Option ℚ)), r.length = n → v.length = n →
          (_cum_sum_by r v).length = n)
      ∧ (∀ (n : ℕ) (r : List ℚ) (v : List (Option ℚ)), r.length = n → v.length = n →
          (_cum_prod_by r v).length = n)
      ∧ (∀ (n : ℕ) (x b : List (Option ℚ)) (d k : ℕ), x.length = n → b.length = n →
          (_sum_split_by x b d k).1.length = n ∧ (_sum_split_by x b d k).2.length = n)
      ∧ (∀ (n : ℕ) (le lx se sx : List Bool) (acc act : Bool),
          le.length = n → lx.length = n → se.length = n → sx.length = n →
          (_signals_to_size le lx se sx acc act).length = n) := by
  refine ⟨fun α β f d minp xs => length_rollWith f d minp xs,
    fun xs => length_cumSumResetAux xs 0, ?_, ?_, ?_, ?_⟩
  · intro n r v hr hv
    rw [_cum_sum_by, length_cumByAux, List.length_zip, hr, hv, Nat.min_self]
  · intro n r v hr hv
    rw [_cum_prod_by, length_cumByAux, List.length_zip, hr, hv, Nat.min_self]
  · intro n x b d k hx hb
    constructor <;> simp [_sum_split_by, length_zipValid2, hx, hb]
  · intro n le lx se sx acc act h1 h2 h3 h4
    rw [_signals_to_size, length_sigRun]
    simp [zip4, h1, h2, h3, h4]

/-- Witness for C9 at concrete equal-length inputs. -/
theorem c9_lengths_witness :
    (_cum_sum_by [1] [none]).length = 1
      ∧ (_cum_prod_by [1] [none]).length = 1
      ∧ (_sum_split_by [some 1] [some 1] 1 1).1.length = 1
      ∧ (_sum_split_by [some 1] [some 1] 1 1).2.length = 1
      ∧ (_signals_to_size [true] [false] [false] [false] false false).length = 1 := by
  refine ⟨c9_lengths.2.2.1 1 [1] [none] rfl rfl,
    c9_lengths.2.2.2.1 1 [1] [none] rfl rfl,
    (c9_lengths.2.2.2.2.1 1 [some 1] [some 1] 1 1 rfl rfl).1,
    (c9_lengths.2.2.2.2.1 1 [some 1] [some 1] 1 1 rfl rfl).2,
    c9_lengths.2.2.2.2.2 1 [true] [false] [false] [false] false false rfl rfl rfl rfl⟩

theorem kleeneAnd_eq_some_true :
    ∀ a b : Option Bool, kleeneAnd a b = some true ↔ a = some true ∧ b = some true := by
  decide

/-- Claim C10: at every position where `ts_count_eq` holds (the window count
equals `n` with the last `n` observations consecutive), `ts_count_ge` (window
count at least `n` with the last `n` consecutive) holds as well, for every
input, window, count and minimum-sample setting. -/
theorem c10_count_eq_implies_ge :
    ∀ (x : List (Option ℚ)) (d n minp i : ℕ),
      (ts_count_eq x d n minp)[i]? = some (some true) →
      (ts_count_ge x d n minp)[i]? = some (some true) := by
  intro x d n minp i h
  have hlen : i < x.length := by
    by_contra hc
    push_neg at hc
    rw [List.getElem?_eq_none (by simpa [ts_count_eq] using hc)] at h
    exact Option.noConfusion h
  rw [ts_count_eq, List.getElem?_map, List.getElem?_range hlen] at h
  rw [ts_count_ge, List.getElem?_map, List.getElem?_range hlen]
  simp only [Option.map_some', Option.some.injEq] at h ⊢
  rw [kleeneAnd_eq_some_true] at h
  obtain ⟨hA, hB⟩ := h
  rw [Option.map_eq_some'] at hB
  obtain ⟨s, hs, hd⟩ := hB
  have hsn : s = n := of_decide_eq_true hd
  rw [kleeneAnd_eq_some_true]
  refine ⟨hA, ?_⟩
  rw [hs]
  simp [hsn]

/-- Witness for C10 at a concrete input where `ts_count_eq` is true. -/
theorem c10_count_eq_implies_ge_witness :
    (ts_count_ge [some 1] 1 1 1)[0]? = some (some true) := by
  refine c10_count_eq_implies_ge [some 1] 1 1 1 0 ?_
  norm_num [ts_count_eq, sumAt, kleeneAnd, toCount, window, countValid, dropNone,
    List.range, List.range.loop]

theorem validIdxFrom_idx_lt (w : List (Option ℚ)) :
    ∀ (j : ℕ) (p : ℕ × ℚ), p ∈ validIdxFrom j w → p.1 < j + w.length := by
  induction w with
  | nil => intro j p h; simp [validIdxFrom] at h
  | cons o t ih =>
    intro j p h
    cases o with
    | none =>
      have := ih (j + 1) p (by simpa [validIdxFrom] using h)
      simp only [List.length_cons]
      omega
    | some x =>
      simp only [validIdxFrom, List.mem_cons] at h
      rcases h with rfl | hmem
      · simp only [List.length_cons]
        omega
      · have := ih (j + 1) p hmem
        simp only [List.length_cons]
        omega

theorem pickBy_mem (l : List (ℕ × ℚ)) :
    ∀ (repl : ℚ → ℚ → Bool) (p : ℕ × ℚ), pickBy repl p l ∈ p :: l := by
  induction l with
  | nil => intro repl p; simp [pickBy]
  | cons q t ih =>
    intro repl p
    have h := ih repl (if repl q.2 p.2 then q else p)
    simp only [pickBy] at h ⊢
    rw [List.foldl_cons]
    rcases List.mem_cons.mp h with he | hmem
    · rw [he]
      by_cases hc : repl q.2 p.2 = true
      · simp [hc]
      · simp [hc]
    · exact List.mem_cons_of_mem _ (List.mem_cons_of_mem _ hmem)

theorem validIdxFrom_const (w : List (Option ℚ)) :
    ∀ (c : ℚ) (j : ℕ), (∀ o ∈ w, o = some c) →
      validIdxFrom j w = (List.range w.length).map (fun s => (j + s, c)) := by
  induction w with
  | nil => intro c j h; simp [validIdxFrom]
  | cons o t ih =>
    intro c j h
    have ho : o = some c := h o (List.mem_cons_self o t)
    subst ho
    rw [show validIdxFrom j (some c :: t) = (j, c) :: validIdxFrom (j + 1) t from rfl]
    rw [ih c (j + 1) (fun o' ho' => h o' (List.mem_cons_of_mem _ ho'))]
    rw [List.length_cons, List.range_succ_eq_map, List.map_cons, List.map_map]
    refine List.cons_eq_cons.mpr ⟨by simp, ?_⟩
    refine List.map_congr_left ?_
    intro s hs
    simp only [Function.comp_apply]
    refine Prod.ext ?_ rfl
    simp
    omega

theorem pickBy_const (l : List (ℕ × ℚ)) :
    ∀ (repl : ℚ → ℚ → Bool) (p : ℕ × ℚ) (c : ℚ), p.2 = c → (∀ q ∈ l, q.2 = c) →
      repl c c = true → pickBy repl p l = l.getLastD p := by
  induction l with
  | nil => intro repl p c hp hl hr; rfl
  | cons q t ih =>
    intro repl p c hp hl hr
    have hq : q.2 = c := hl q (List.mem_cons_self q t)
    simp only [pickBy, List.foldl_cons, hq, hp, hr, if_true]
    rw [List.getLastD_cons]
    exact ih repl q c hq (fun r hrr => hl r (List.mem_cons_of_mem _ hrr)) hr

theorem getLastD_map_range (n : ℕ) (f : ℕ → ℕ × ℚ) (a : ℕ × ℚ) :
    ((List.range (n + 1)).map f).getLastD a = f n := by
  rw [List.range_succ, List.map_append]
  simp

theorem argExt_bound (repl : ℚ → ℚ → Bool) (rev : Bool) (w : List (Option ℚ)) (j : ℕ)
    (h : argExt repl rev w = some j) : j ≤ w.length - 1 := by
  rw [argExt] at h
  cases hv : validIdxFrom 0 w with
  | nil => rw [hv] at h; exact absurd h (by simp)
  | cons p t =>
    rw [hv] at h
    simp only [Option.some.injEq] at h
    have hm : pickBy repl p t ∈ p :: t := pickBy_mem t repl p
    rw [← hv] at hm
    have hlt := validIdxFrom_idx_lt w 0 _ hm
    cases rev <;> simp at h <;> omega

theorem roll_argExt_bound (repl : ℚ → ℚ → Bool) (xs : List (Option ℚ)) (d minp : ℕ)
    (rev : Bool) (i j : ℕ)
    (h : (rollWith (argExt repl rev) d minp xs)[i]? = some (some j)) : j ≤ d - 1 := by
  have hlen : i < xs.length := by
    by_contra hc
    push_neg at hc
    rw [List.getElem?_eq_none (by rw [length_rollWith]; exact hc)] at h
    exact Option.noConfusion h
  rw [rollWith_getElem _ d minp i xs hlen] at h
  simp only [Option.some.injEq] at h
  by_cases hc : minp ≤ countValid (window xs d i)
  · rw [if_pos hc] at h
    have hb := argExt_bound repl rev (window xs d i) j h
    have hw := length_window_le xs d i
    omega
  · rw [if_neg hc] at h
    exact absurd h (by simp)

theorem roll_argExt_const (repl : ℚ → ℚ → Bool) (xs : List (Option ℚ)) (d minp : ℕ)
    (i j : ℕ) (c : ℚ) (hw : ∀ o ∈ window xs d i, o = some c) (hr : repl c c = true)
    (h : (rollWith (argExt repl true) d minp xs)[i]? = some (some j)) : j = 0 := by
  have hlen : i < xs.length := by
    by_contra hc
    push_neg at hc
    rw [List.getElem?_eq_none (by rw [length_rollWith]; exact hc)] at h
    exact Option.noConfusion h
  rw [rollWith_getElem _ d minp i xs hlen] at h
  simp only [Option.some.injEq] at h
  by_cases hcv : minp ≤ countValid (window xs d i)
  swap
  · rw [if_neg hcv] at h
    exact absurd h (by simp)
  rw [if_pos hcv] at h
  have hv := validIdxFrom_const (window xs d i) c 0 hw
  simp only [Nat.zero_add] at hv
  rw [argExt, hv] at h
  cases hn : (window xs d i).length with
  | zero => rw [hn] at h; exact absurd h (by simp)
  | succ m =>
    rw [hn, List.range_succ_eq_map, List.map_cons, List.map_map] at h
    simp only [Option.some.injEq, if_true] at h
    have hall : ∀ q ∈ (List.range m).map ((fun s => (s, c)) ∘ Nat.succ), q.2 = c := by
      intro q hq
      rcases List.mem_map.mp hq with ⟨s, hs, rfl⟩
      rfl
    rw [pickBy_const _ repl (0, c) c rfl hall hr] at h
    cases m with
    | zero => simp at h; omega
    | succ m' =>
      rw [show ((List.range (m' + 1)).map ((fun s => (s, c)) ∘ Nat.succ)).getLastD (0, c)
            = ((fun s => ((s : ℕ), c)) ∘ Nat.succ) m' from getLastD_map_range m' _ _] at h
      simp only [Function.comp_apply] at h
      omega

/-- Claim C4: whenever the rolling arg-extremum kernels produce a non-missing
output it lies in `[0, d-1]` (the value being a natural number, the upper
bound `d - 1` is stated); and on a window consisting entirely of equal values
the default (reverse, distance-from-current) mode outputs `0`, the
most-recent tie-break. -/
theorem c4_arg_extremum :
    (∀ (xs : List (Option ℚ)) (d minp : ℕ) (rev : Bool) (i j : ℕ),
        (roll_argmax xs d minp rev)[i]? = some (some j) → j ≤ d - 1)
      ∧ (∀ (xs : List (Option ℚ)) (d minp : ℕ) (rev : Bool) (i j : ℕ),
          (roll_argmin xs d minp rev)[i]? = some (some j) → j ≤ d - 1)
      ∧ (∀ (xs : List (Option ℚ)) (d minp i j : ℕ) (c : ℚ),
          (∀ o ∈ window xs d i, o = some c) →
          (roll_argmax xs d minp true)[i]? = some (some j) → j = 0)
      ∧ (∀ (xs : List (Option ℚ)) (d minp i j : ℕ) (c : ℚ),
          (∀ o ∈ window xs d i, o = some c) →
          (roll_argmin xs d minp true)[i]? = some (some j) → j = 0) := by
  refine ⟨fun xs d minp rev i j h => roll_argExt_bound _ xs d minp rev i j h,
    fun xs d minp rev i j h => roll_argExt_bound _ xs d minp rev i j h,
    fun xs d minp i j c hw h => roll_argExt_const _ xs d minp i j c hw (by simp) h,
    fun xs d minp i j c hw h => roll_argExt_const _ xs d minp i j c hw (by simp) h⟩

set_option maxHeartbeats 1000000 in
/-- Witness for C4 at concrete inputs: a window with an interior maximum and
a constant window. -/
theorem c4_arg_extremum_witness :
    ((1 : ℕ) ≤ 2 - 1) ∧ ((1 : ℕ) ≤ 2 - 1) ∧ ((0 : ℕ) = 0) ∧ ((0 : ℕ) = 0) := by
  refine ⟨c4_arg_extremum.1 [some 9, some 1] 2 2 true 1 1 ?_,
    c4_arg_extremum.2.1 [some 1, some 9] 2 2 true 1 1 ?_,
    c4_arg_extremum.2.2.1 [some 5, some 5] 2 1 1 0 5 ?_ ?_,
    c4_arg_extremum.2.2.2 [some 5, some 5] 2 1 1 0 5 ?_ ?_⟩
  · norm_num [roll_argmax, rollWith, window, countValid, dropNone, argExt,
      validIdxFrom, pickBy, List.range, List.range.loop]
  · norm_num [roll_argmin, rollWith, window, countValid, dropNone, argExt,
      validIdxFrom, pickBy, List.range, List.range.loop]
  · norm_num [window]
  · norm_num [roll_argmax, rollWith, window, countValid, dropNone, argExt,
      validIdxFrom, pickBy, List.range, List.range.loop]
  · norm_num [window]
  · norm_num [roll_argmin, rollWith, window, countValid, dropNone, argExt,
      validIdxFrom, pickBy, List.range, List.range.loop]

theorem lsum_nil {α : Type} (f : α → ℚ) : lsum [] f = 0 := rfl

theorem lsum_cons {α : Type} (x : α) (t : List α) (f : α → ℚ) :
    lsum (x :: t) f = f x + lsum t f := by
  simp [lsum]

theorem lsum_sq_nonneg {α : Type} (v : List α) (f : α → ℚ) :
    0 ≤ lsum v (fun t => f t * f t) := by
  induction v with
  | nil => simp [lsum]
  | cons x t ih => rw [lsum_cons]; nlinarith [mul_self_nonneg (f x)]

theorem list_cs {α : Type} (v : List α) (f g : α → ℚ) :
    (lsum v (fun t => f t * g t))^2 ≤
      lsum v (fun t => f t * f t) * lsum v (fun t => g t * g t) := by
  induction v with
  | nil => simp [lsum]
  | cons x t ih =>
    simp only [lsum_cons]
    have hP := lsum_sq_nonneg t f
    have hQ := lsum_sq_nonneg t g
    rcases eq_or_lt_of_le hQ with hQ0 | hQpos
    · have hS : lsum t (fun s => f s * g s) = 0 := by
        have h2 := sq_nonneg (lsum t (fun s => f s * g s))
        have h3 : (lsum t (fun s => f s * g s))^2 = 0 := le_antisymm (by nlinarith [ih]) h2
        exact (pow_eq_zero_iff (by norm_num)).mp h3
      rw [hS, ← hQ0]
      nlinarith [hP, sq_nonneg (f x * g x), mul_nonneg hP (mul_self_nonneg (g x))]
    · nlinarith [ih, hP, hQ,
        sq_nonneg (f x * lsum t (fun s => g s * g s) - g x * lsum t (fun s => f s * g s)),
        mul_nonneg (sq_nonneg (g x)) (sub_nonneg.mpr ih),
        mul_nonneg (le_of_lt hQpos) (sub_nonneg.mpr ih)]

theorem lsum_affine {α : Type} (v : List α) (f g h : α → ℚ) (a1 b1 c1 a2 b2 c2 : ℚ) :
    lsum v (fun t => (a1 * f t + b1 * h t + c1) * (a2 * g t + b2 * h t + c2)) =
      a1 * a2 * lsum v (fun t => f t * g t) + a1 * b2 * lsum v (fun t => f t * h t)
        + b1 * a2 * lsum v (fun t => g t * h t) + b1 * b2 * lsum v (fun t => h t * h t)
        + a1 * c2 * lsum v f + a2 * c1 * lsum v g + (b1 * c2 + b2 * c1) * lsum v h
        + c1 * c2 * (v.length : ℚ) := by
  induction v with
  | nil => simp [lsum]
  | cons x t ih =>
    simp only [lsum_cons, List.length_cons, ih]
    push_cast
    ring

theorem list_cs_affine {α : Type} (v : List α) (f g h : α → ℚ) (a1 b1 c1 a2 b2 c2 : ℚ) :
    (lsum v (fun t => (a1 * f t + b1 * h t + c1) * (a2 * g t + b2 * h t + c2)))^2 ≤
      lsum v (fun t => (a1 * f t + b1 * h t + c1) * (a1 * f t + b1 * h t + c1)) *
        lsum v (fun t => (a2 * g t + b2 * h t + c2) * (a2 * g t + b2 * h t + c2)) :=
  list_cs v _ _

set_option maxHeartbeats 1600000 in
theorem pnum_sq_le_pden (v : List (ℚ × ℚ × ℚ)) (h3 : cstat v p3 p3 ≠ 0) :
    (pnum v)^2 ≤ pden v := by
  have hne : v ≠ [] := by
    rintro rfl
    exact h3 (by simp [cstat, lsum])
  have hlen : 0 < v.length := List.length_pos.mpr hne
  have hn : (0:ℚ) < (v.length : ℚ) := by exact_mod_cast hlen
  have cs := list_cs_affine v p1 p2 p3
    (cstat v p3 p3 * (v.length : ℚ)) (-(cstat v p1 p3 * (v.length : ℚ)))
    (cstat v p1 p3 * lsum v p3 - cstat v p3 p3 * lsum v p1)
    (cstat v p3 p3 * (v.length : ℚ)) (-(cstat v p2 p3 * (v.length : ℚ)))
    (cstat v p2 p3 * lsum v p3 - cstat v p3 p3 * lsum v p2)
  rw [lsum_affine, lsum_affine, lsum_affine] at cs
  have key : ((v.length : ℚ) * cstat v p3 p3)^2 * (pnum v)^2 ≤
      ((v.length : ℚ) * cstat v p3 p3)^2 * pden v := by
    convert cs using 1
    · simp only [pnum, cstat]
      ring
    · simp only [pden, cstat]
      ring
  have hA : (v.length : ℚ) * cstat v p3 p3 ≠ 0 := mul_ne_zero (ne_of_gt hn) h3
  have hpos : 0 < ((v.length : ℚ) * cstat v p3 p3)^2 :=
    lt_of_le_of_ne (sq_nonneg _) (Ne.symm (pow_ne_zero 2 hA))
  exact le_of_mul_le_mul_left key hpos

theorem dropNone_map {α β : Type} (g : α → β) (w : List (Option α)) :
    dropNone (w.map (Option.map g)) = (dropNone w).map g := by
  induction w with
  | nil => rfl
  | cons o t ih => cases o <;> simp [dropNone, ih]

theorem window_map {α β : Type} (h : α → β) (xs : List α) (d i : ℕ) :
    window (xs.map h) d i = (window xs d i).map h := by
  simp [window, List.map_take, List.map_drop]

theorem countValid_map {α β : Type} (g : α → β) (w : List (Option α)) :
    countValid (w.map (Option.map g)) = countValid w := by
  simp [countValid, dropNone_map]

theorem rollWith_map {α γ β : Type} (g : α → γ) (f : List (Option γ) → Option β)
    (d minp : ℕ) (xs : List (Option α)) :
    rollWith f d minp (xs.map (Option.map g)) =
      rollWith (fun w => f (w.map (Option.map g))) d minp xs := by
  simp only [rollWith, List.length_map]
  refine List.map_congr_left ?_
  intro i hi
  rw [window_map, countValid_map]

theorem zipValid3_swap (xs : List (Option ℚ)) :
    ∀ ys zs : List (Option ℚ),
      zipValid3 ys xs zs = (zipValid3 xs ys zs).map (Option.map swap12) := by
  induction xs with
  | nil => intro ys zs; cases ys <;> cases zs <;> simp [zipValid3]
  | cons x? t ih =>
    intro ys zs
    cases ys with
    | nil => simp [zipValid3]
    | cons y? ty =>
      cases zs with
      | nil => simp [zipValid3]
      | cons z? tz =>
        rcases x? with _ | a <;> rcases y? with _ | b <;> rcases z? with _ | c <;>
          simp [zipValid3, swap12, p1, p2, p3, ih ty tz]

theorem lsum_map {α β : Type} (g : α → β) (v : List α) (f : β → ℚ) :
    lsum (v.map g) f = lsum v (fun t => f (g t)) := by
  simp [lsum, List.map_map]
  rfl

theorem lsum_mul_congr {α : Type} (v : List α) (f g : α → ℚ) :
    lsum v (fun t => f t * g t) = lsum v (fun t => g t * f t) := by
  unfold lsum
  congr 1
  exact List.map_congr_left (fun a _ => mul_comm _ _)

theorem cstat_map_swap (v : List (ℚ × ℚ × ℚ)) (f g : (ℚ × ℚ × ℚ) → ℚ) :
    cstat (v.map swap12) f g =
      cstat v (fun t => f (swap12 t)) (fun t => g (swap12 t)) := by
  simp [cstat, lsum_map]

theorem cstat_comm (v : List (ℚ × ℚ × ℚ)) (f g : (ℚ × ℚ × ℚ) → ℚ) :
    cstat v f g = cstat v g f := by
  unfold cstat
  rw [lsum_mul_congr]
  ring

theorem cstat_swap11 (v : List (ℚ × ℚ × ℚ)) :
    cstat (v.map swap12) p1 p1 = cstat v p2 p2 := by
  rw [cstat_map_swap]
  rfl

theorem cstat_swap22 (v : List (ℚ × ℚ × ℚ)) :
    cstat (v.map swap12) p2 p2 = cstat v p1 p1 := by
  rw [cstat_map_swap]
  rfl

theorem cstat_swap33 (v : List (ℚ × ℚ × ℚ)) :
    cstat (v.map swap12) p3 p3 = cstat v p3 p3 := by
  rw [cstat_map_swap]
  rfl

theorem cstat_swap12' (v : List (ℚ × ℚ × ℚ)) :
    cstat (v.map swap12) p1 p2 = cstat v p1 p2 := by
  rw [cstat_map_swap]
  rw [show (fun t => p1 (swap12 t)) = p2 from rfl, show (fun t => p2 (swap12 t)) = p1 from rfl]
  exact cstat_comm v p2 p1

theorem cstat_swap13 (v : List (ℚ × ℚ × ℚ)) :
    cstat (v.map swap12) p1 p3 = cstat v p2 p3 := by
  rw [cstat_map_swap]
  rfl

theorem cstat_swap23 (v : List (ℚ × ℚ × ℚ)) :
    cstat (v.map swap12) p2 p3 = cstat v p1 p3 := by
  rw [cstat_map_swap]
  rfl

theorem pnum_map_swap (v : List (ℚ × ℚ × ℚ)) : pnum (v.map swap12) = pnum v := by
  unfold pnum
  rw [cstat_swap12', cstat_swap33, cstat_swap13, cstat_swap23]
  ring

theorem pden_map_swap (v : List (ℚ × ℚ × ℚ)) : pden (v.map swap12) = pden v := by
  unfold pden
  rw [cstat_swap11, cstat_swap22, cstat_swap33, cstat_swap13, cstat_swap23]
  ring

theorem pcKernel_map_swap (w : List (Option (ℚ × ℚ × ℚ))) :
    pcKernel (w.map (Option.map swap12)) = pcKernel w := by
  unfold pcKernel
  rw [dropNone_map, cstat_swap11, cstat_swap22, cstat_swap33, pden_map_swap, pnum_map_swap]
  exact if_congr (by tauto) rfl rfl

theorem roll_partial_corr_comm (xs ys zs : List (Option ℚ)) (d minp : ℕ) :
    roll_partial_corr xs ys zs d minp = roll_partial_corr ys xs zs d minp := by
  unfold roll_partial_corr
  rw [zipValid3_swap xs ys zs, rollWith_map]
  have hf : (fun w : List (Option (ℚ × ℚ × ℚ)) => pcKernel (w.map (Option.map swap12)))
      = pcKernel := funext pcKernel_map_swap
  rw [hf]

theorem bounded_of_sq_le (q r : ℚ) (hle : q^2 ≤ r) (hr : 0 < r) :
    -1 ≤ (q : ℝ) / Real.sqrt (r : ℝ) ∧ (q : ℝ) / Real.sqrt (r : ℝ) ≤ 1 := by
  have hrR : (0:ℝ) < (r:ℝ) := by exact_mod_cast hr
  have hs : 0 < Real.sqrt (r:ℝ) := Real.sqrt_pos.mpr hrR
  have hq2 : ((q:ℝ))^2 ≤ (r:ℝ) := by exact_mod_cast hle
  have habs : |(q:ℝ)| ≤ Real.sqrt (r:ℝ) := by
    rw [← Real.sqrt_sq_eq_abs]
    exact Real.sqrt_le_sqrt hq2
  obtain ⟨hl, hu⟩ := abs_le.mp habs
  constructor
  · rw [le_div_iff hs]
    linarith
  · rw [div_le_one hs]
    exact hu

/-- Claim C8: the rolling partial correlation is symmetric in its two primary
series — `roll_partial_corr x y z` and `roll_partial_corr y x z` coincide at
every position — and every non-missing output, whose real value is
`nu / √de` in the kernel's exact `(numerator, squared denominator)`
representation, lies in `[-1, 1]`. -/
theorem c8_partial_corr_props :
    ∀ (xs ys zs : List (Option ℚ)) (d minp : ℕ),
      roll_partial_corr xs ys zs d minp = roll_partial_corr ys xs zs d minp
        ∧ ∀ (i : ℕ) (nu de : ℚ),
            (roll_partial_corr xs ys zs d minp)[i]? = some (some (nu, de)) →
            0 < de ∧ -1 ≤ (nu : ℝ) / Real.sqrt (de : ℝ)
              ∧ (nu : ℝ) / Real.sqrt (de : ℝ) ≤ 1 := by
  intro xs ys zs d minp
  refine ⟨roll_partial_corr_comm xs ys zs d minp, ?_⟩
  intro i nu de h
  have hlen : i < (zipValid3 xs ys zs).length := by
    by_contra hc
    push_neg at hc
    rw [roll_partial_corr, List.getElem?_eq_none (by rw [length_rollWith]; exact hc)] at h
    exact Option.noConfusion h
  rw [roll_partial_corr, rollWith_getElem _ d minp i _ hlen] at h
  simp only [Option.some.injEq] at h
  by_cases hcv : minp ≤ countValid (window (zipValid3 xs ys zs) d i)
  swap
  · rw [if_neg hcv] at h
    exact absurd h (by simp)
  rw [if_pos hcv, pcKernel] at h
  by_cases hguard : cstat (dropNone (window (zipValid3 xs ys zs) d i)) p1 p1 = 0 ∨
      cstat (dropNone (window (zipValid3 xs ys zs) d i)) p2 p2 = 0 ∨
      cstat (dropNone (window (zipValid3 xs ys zs) d i)) p3 p3 = 0 ∨
      pden (dropNone (window (zipValid3 xs ys zs) d i)) = 0
  · rw [if_pos hguard] at h
    exact absurd h (by simp)
  · rw [if_neg hguard] at h
    push_neg at hguard
    obtain ⟨h1, h2, h3, h4⟩ := hguard
    have hnu : nu = pnum (dropNone (window (zipValid3 xs ys zs) d i)) := by
      simp at h
      exact h.1.symm
    have hde : de = pden (dropNone (window (zipValid3 xs ys zs) d i)) := by
      simp at h
      exact h.2.symm
    subst hnu
    subst hde
    have hb := pnum_sq_le_pden (dropNone (window (zipValid3 xs ys zs) d i)) h3
    have hdpos : 0 < pden (dropNone (window (zipValid3 xs ys zs) d i)) :=
      lt_of_le_of_ne (le_trans (sq_nonneg _) hb) (Ne.symm h4)
    exact ⟨hdpos, bounded_of_sq_le _ _ hb hdpos⟩

set_option maxHeartbeats 1600000 in
/-- Witness for C8 at a concrete three-series input with a non-missing
output. -/
theorem c8_partial_corr_props_witness :
    (0 : ℚ) < 2025 ∧ -1 ≤ ((45 : ℚ) : ℝ) / Real.sqrt ((2025 : ℚ) : ℝ)
      ∧ ((45 : ℚ) : ℝ) / Real.sqrt ((2025 : ℚ) : ℝ) ≤ 1 := by
  refine (c8_partial_corr_props [some 0, some 1, some 2] [some 0, some 1, some 3]
    [some 0, some 2, some 1] 3 3).2 2 45 2025 ?_
  norm_num [roll_partial_corr, rollWith, window, countValid, dropNone, pcKernel,
    pnum, pden, cstat, lsum, p1, p2, p3, zipValid3, List.range, List.range.loop]

/-- Claim C6, amended: in the correlation kernel `roll_partial_corr`, a window
where any pairwise correlation denominator is exactly zero produces a missing
output, not a fault and not an in-band value; but in the scale kernel
`ts_scale` a window whose maximum equals its minimum produces the in-band
value `0` rather than a missing output (the source's
`when(a != b).then(...).otherwise(0)`). -/
theorem c6_zero_denominator :
    (∀ (xs ys zs : List (Option ℚ)) (d minp i : ℕ),
        i < (zipValid3 xs ys zs).length →
        (cstat (dropNone (window (zipValid3 xs ys zs) d i)) p1 p1 = 0 ∨
          cstat (dropNone (window (zipValid3 xs ys zs) d i)) p2 p2 = 0 ∨
          cstat (dropNone (window (zipValid3 xs ys zs) d i)) p3 p3 = 0) →
        (roll_partial_corr xs ys zs d minp)[i]? = some none)
      ∧ (∀ (xs : List (Option ℚ)) (d minp i : ℕ) (a : ℚ),
          i < xs.length → minAt xs d minp i = some a → maxAt xs d minp i = some a →
          (ts_scale xs d minp)[i]? = some (some 0)) := by
  constructor
  · intro xs ys zs d minp i hlen hz
    rw [roll_partial_corr, rollWith_getElem _ d minp i _ hlen]
    by_cases hcv : minp ≤ countValid (window (zipValid3 xs ys zs) d i)
    · rw [if_pos hcv, pcKernel, if_pos (by tauto)]
    · rw [if_neg hcv]
  · intro xs d minp i a hlen hmin hmax
    rw [ts_scale, List.getElem?_map, List.getElem?_range hlen]
    simp [hmin, hmax]

/-- Witness for C6 at concrete inputs: a constant window makes every pairwise
correlation denominator zero and makes the window maximum equal its
minimum. -/
theorem c6_zero_denominator_witness :
    (roll_partial_corr [some 1, some 1] [some 1, some 1] [some 1, some 1] 2 2)[1]?
        = some none
      ∧ (ts_scale [some 1, some 1] 2 2)[1]? = some (some 0) := by
  refine ⟨c6_zero_denominator.1 [some 1, some 1] [some 1, some 1] [some 1, some 1] 2 2 1
      (by norm_num [zipValid3]) (Or.inl ?_),
    c6_zero_denominator.2 [some 1, some 1] 2 2 1 1 (by norm_num) ?_ ?_⟩
  · norm_num [window, zipValid3, dropNone, cstat, lsum, p1, p2, p3]
  · norm_num [minAt, window, countValid, dropNone, minD]
  · norm_num [maxAt, window, countValid, dropNone, maxD]

end PolarsTA
